import Mathlib

/-!
Verification of the blockchain-store facade (`leveldb_blockchain.cpp`)
against its natural-language specification.

The facade's own control flow (`do_store`, the `fetch_*` dispatchers,
`initialize`, `start`, `stop`, `do_fetch_outputs`) is embedded directly
from the source file.  The collaborator components it calls —
`leveldb_common` (the five tables), `orphans_pool`, `leveldb_chain_keeper`
and `leveldb_organizer` — are declared in headers that are not part of the
available sources; those parts are modelled from the specification text
(sections 3, 4.3, 4.4 and 4.5) and each such definition is marked
`Modelled from the spec:` in its doc comment.
-/

namespace LevelDbBlockchain

/-- A block as this core sees it: an opaque header (its externally computed
hash, the previous-block hash it declares, and the remaining header fields
collapsed into one opaque payload) plus the ordered list of its transaction
hashes.  Hashing and byte-level codecs are external collaborators, so the
hash is carried as data. -/
structure Block where
  hash : Nat
  prevHash : Nat
  headerRest : Nat
  txHashes : List Nat
deriving DecidableEq, Repr

/-- Error taxonomy of the facade (`error::…` codes used in the source). -/
inductive Errc
  | success
  | notFound
  | duplicate
  | operationFailed
  | unsupportedPaymentType
  | unspentOutput
  | serviceStopped
deriving DecidableEq, Repr

/-- One invocation of a `store` continuation, i.e. one `handle_store` call
with its error code and `block_info` payload collapsed into a single tag. -/
inductive StoreEvent
  | duplicateConfirmed (depth : Nat)
  | duplicateOrphan
  | accepted (depth : Nat)
  | orphaned
deriving DecidableEq, Repr

/-- Modelled from the spec: the persistent state owned by the facade.
`chain` is the canonical chain — position in the list is the block's depth
(blocks-by-depth table), and the hash→depth table is its derived index.
`pool` is the OrphanPool contents in insertion order.  `flushCounter` is
the static checkpoint counter of `do_store`. -/
structure ChainState where
  chain : List Block
  pool : List Block
  flushCounter : Nat
deriving DecidableEq, Repr

/-- Hashes of a list of blocks, in order. -/
def chainHashes (c : List Block) : List Nat := c.map Block.hash

/-- Modelled from the spec: the hash→depth lookup
(`leveldb_chain_keeper::find_index`); returns the depth of the first block
in the canonical chain carrying the given hash. -/
def findIndexByHash : List Block → Nat → Option Nat
  | [], _ => none
  | b :: rest, h =>
    if b.hash = h then some 0 else (findIndexByHash rest h).map (· + 1)

/-- Hash of the canonical tip, if any. -/
def tipHash (c : List Block) : Option Nat := c.getLast?.map Block.hash

/-- Modelled from the spec: OrphanPool membership test by block hash
(section 4.3: `add` refuses an entry whose hash is already pending). -/
def poolHasHash : List Block → Nat → Bool
  | [], _ => false
  | b :: rest, h => b.hash == h || poolHasHash rest h

/-- Modelled from the spec: detach from the pool the first pending block
whose declared parent hash is `t`, returning it and the remaining pool. -/
def poolExtract : List Block → Nat → Option (Block × List Block)
  | [], _ => none
  | b :: rest, t =>
    if b.prevHash = t then some (b, rest)
    else (poolExtract rest t).map (fun x => (x.1, b :: x.2))

/-- Modelled from the spec: the ChainOrganizer's attachment cascade
(section 4.4) — while some pending orphan's parent hash equals the
canonical tip's hash, detach it and confirm it at depth tip+1; repeat.
Fuel bounds the loop by the pool size.  This models only attachment at
the canonical tip: spec 4.4 additionally attaches orphans whose parent is
a confirmed block below the tip and reorganizes when such a branch
becomes strictly longer.  Every theorem whose conclusion depends on what
the organizer attaches therefore carries hypotheses confining it to
states on which the two coincide — no pending block's declared parent is
a confirmed block other than the tip being extended — so nothing proved
here relies on the omitted behaviour. -/
def organizeFuel : Nat → List Block → List Block → List Block × List Block
  | 0, c, q => (c, q)
  | fuel + 1, c, q =>
    match tipHash c with
    | none => (c, q)
    | some t =>
      match poolExtract q t with
      | none => (c, q)
      | some bq => organizeFuel fuel (c ++ [bq.1]) bq.2

/-- The checkpoint interval of `do_store` (`flush_counter == 2000`). -/
def flushThreshold : Nat := 2000

/-- Everything one `do_store` call produces: the successor state, the
sequence of `handle_store` invocations it makes (in order), whether
`organize_->start()` ran, and whether the checkpoint flush fired. -/
structure StoreResult where
  state : ChainState
  events : List StoreEvent
  organizeCalled : Bool
  flushed : Bool
deriving DecidableEq, Repr

/-- The orphan pool after `orphans_->add(stored_detail)`: unchanged when
the hash is already pending (`add` returns false), else the block is
appended. -/
def storePool1 (b : Block) (s : ChainState) : List Block :=
  if poolHasHash s.pool b.hash then s.pool else s.pool ++ [b]

/-- The (chain, pool) pair after `organize_->start()` ran on the pool as
left by `add`. -/
def storeOrganized (b : Block) (s : ChainState) : List Block × List Block :=
  organizeFuel (storePool1 b s).length s.chain (storePool1 b s)

/-- The status reported by the final `handle_store(stored_detail->errc(),
stored_detail->info())` call: when the submission was added to the pool
and the organizer confirmed its hash, `accepted` at that depth; otherwise
the submission object keeps its default orphan status (in particular a
pending duplicate's submission is never the pooled object the organizer
touches). -/
def storeSecondEvent (b : Block) (s : ChainState) : StoreEvent :=
  if poolHasHash s.pool b.hash then StoreEvent.orphaned
  else
    match findIndexByHash (storeOrganized b s).1 b.hash with
    | some dep => StoreEvent.accepted dep
    | none => StoreEvent.orphaned

/-- `leveldb_blockchain::do_store`, embedded from the source: a confirmed
duplicate returns immediately with its depth; otherwise the block is
offered to the orphan pool (a pending duplicate reports duplicate/orphan
but — the source lacks a `return` there — still falls through), the
organizer runs, the continuation is invoked with the submission's final
status, and the flush counter is incremented, flushing at 2000. -/
def doStore (b : Block) (s : ChainState) : StoreResult :=
  match findIndexByHash s.chain b.hash with
  | some d => ⟨s, [StoreEvent.duplicateConfirmed d], false, false⟩
  | none =>
    ⟨⟨(storeOrganized b s).1, (storeOrganized b s).2,
      if s.flushCounter + 1 = flushThreshold then 0 else s.flushCounter + 1⟩,
     (if poolHasHash s.pool b.hash then [StoreEvent.duplicateOrphan] else [])
       ++ [storeSecondEvent b s],
     true, s.flushCounter + 1 == flushThreshold⟩

/-- A sequence of `store` calls: each call's `StoreResult` in order, plus
the final state. -/
def storeTrace : List Block → ChainState → List StoreResult × ChainState
  | [], s => ([], s)
  | b :: bs, s =>
    let r := doStore b s
    let rest := storeTrace bs r.state
    (r :: rest.1, rest.2)

/-- `uint32` not-found sentinel (`std::numeric_limits<uint32_t>::max()`). -/
def uint32Max : Nat := 2 ^ 32 - 1

/-- `do_fetch_block_depth`, embedded from the source: the raw `uint32`
table lookup result is mapped to the handler invocation. -/
def doFetchBlockDepthRaw (v : Nat) : Errc × Nat :=
  if v = uint32Max then (Errc.notFound, 0) else (Errc.success, v)

/-- `do_fetch_last_depth`, embedded from the source: same sentinel mapping
as `do_fetch_block_depth`, applied to `find_last_block_depth`. -/
def doFetchLastDepthRaw (v : Nat) : Errc × Nat :=
  if v = uint32Max then (Errc.notFound, 0) else (Errc.success, v)

/-- Modelled from the spec: `leveldb_common::fetch_block_depth` — the
hash→depth table read, yielding the `uint32` sentinel on a miss. -/
def commonFetchBlockDepth (s : ChainState) (h : Nat) : Nat :=
  match findIndexByHash s.chain h with
  | some d => d
  | none => uint32Max

/-- `fetch_block_depth(hash)` end to end: table read then sentinel map. -/
def fetchBlockDepth (s : ChainState) (h : Nat) : Errc × Nat :=
  doFetchBlockDepthRaw (commonFetchBlockDepth s h)

/-- Modelled from the spec: `leveldb_common::fetch_proto_block` by depth —
the blocks-by-depth table read. -/
def fetchProtoBlockByDepth (s : ChainState) (d : Nat) : Option Block :=
  s.chain.get? d

/-- `fetch_block_header_by_depth`, embedded from the source: decode the
stored block and return only its header (`protobuf_to_block_header`). -/
def fetchBlockHeaderByDepth (s : ChainState) (d : Nat) : Errc × Option (Nat × Nat) :=
  match fetchProtoBlockByDepth s d with
  | none => (Errc.notFound, none)
  | some b => (Errc.success, some (b.prevHash, b.headerRest))

/-- `fetch_blk_tx_hashes_impl` at a depth, embedded from the source:
return the stored block's transaction hashes in stored order. -/
def fetchBlockTxHashesByDepth (s : ChainState) (d : Nat) : Errc × List Nat :=
  match fetchProtoBlockByDepth s d with
  | none => (Errc.notFound, [])
  | some b => (Errc.success, b.txHashes)

/-- The payment-address kinds distinguished by `payment_address::type()`. -/
inductive PaymentType
  | pubkeyHash
  | scriptHash
  | nonStandard
deriving DecidableEq, Repr

/-- A payment address: its kind, version byte and short-hash payload. -/
structure PaymentAddr where
  ptype : PaymentType
  version : Nat
  shortHash : Nat
deriving DecidableEq, Repr

/-- What `fetch_outputs` does before any queued work: the handler
invocations it performs synchronously, and whether the read was queued. -/
structure FetchOutputsDispatch where
  immediateCalls : List (Errc × List (Nat × Nat))
  queued : Bool
deriving DecidableEq, Repr

/-- `leveldb_blockchain::fetch_outputs`, embedded from the source: a
non-pay-to-pubkey-hash address is rejected synchronously with
`unsupported_payment_type` and an empty list; otherwise the read is
queued.  The address table is only touched by the queued work. -/
def fetchOutputsDispatch (a : PaymentAddr) : FetchOutputsDispatch :=
  if a.ptype ≠ PaymentType.pubkeyHash then
    ⟨[(Errc.unsupportedPaymentType, [])], false⟩
  else
    ⟨[], true⟩

/-- Environment of `initialize`: whether the directory's advisory lock is
already held by another process, and whether opening the i-th table
succeeds. -/
structure InitEnv where
  lockHeld : Bool
  openOk : Nat → Bool

/-- Outcome of `initialize`: which tables were opened, in order, and
whether initialization succeeded. -/
structure InitOutcome where
  opened : List String
  ok : Bool
deriving DecidableEq, Repr

/-- The five tables opened by `initialize`, in source order. -/
def tableNames : List String :=
  ["blocks", "blocks_hash", "txs", "spends", "address"]

/-- The sequential `open_db` calls of `initialize`: open each table in
order, stopping at the first failure. -/
def openTablesLoop (okFn : Nat → Bool) : Nat → List String → InitOutcome
  | _, [] => ⟨[], true⟩
  | i, n :: rest =>
    if okFn i then
      let r := openTablesLoop okFn (i + 1) rest
      ⟨n :: r.opened, r.ok⟩
    else ⟨[], false⟩

/-- `leveldb_blockchain::initialize`, embedded from the source: take the
directory lock first; if `try_lock` fails return false before touching any
table, otherwise open the five tables in order. -/
def initStore (env : InitEnv) : InitOutcome :=
  if env.lockHeld then ⟨[], false⟩
  else openTablesLoop env.openOk 0 tableNames

/-- `leveldb_blockchain::start`, embedded from the source: run
`initialize` and deliver `success` or `operation_failed` to the start
continuation. -/
def startStore (env : InitEnv) : InitOutcome × Errc :=
  let r := initStore env
  (r, if r.ok then Errc.success else Errc.operationFailed)

/-- Facade state relevant to `stop`: the outstanding reorganize
subscribers (by id, in subscription order) and the open flag of each of
the five table handles. -/
structure FacadeState where
  subscribers : List Nat
  dbBlocksOpen : Bool
  dbBlocksHashOpen : Bool
  dbTxsOpen : Bool
  dbSpendsOpen : Bool
  dbAddressOpen : Bool
deriving DecidableEq, Repr

/-- One notification delivered to a reorganize subscriber. -/
structure Notification where
  subscriber : Nat
  err : Errc
  forkDepth : Nat
  removed : List Block
  added : List Block
deriving DecidableEq, Repr

/-- Modelled from the spec: `subscriber::relay` of the ReorgPublisher —
fire every outstanding one-shot subscriber exactly once with the given
event, clearing the subscription list (section 4.5). -/
def relayStop (subs : List Nat) : List Notification :=
  subs.map (fun h => ⟨h, Errc.serviceStopped, 0, [], []⟩)

/-- `leveldb_blockchain::stop`, embedded from the source: relay the
service-stopped event (depth 0, empty removed/added lists) to every
subscriber, then release the five table handles. -/
def stopFacade (s : FacadeState) : FacadeState × List Notification :=
  (⟨[], false, false, false, false, false⟩, relayStop s.subscribers)

/-- An output point as parsed by `do_fetch_outputs`: a 32-byte hash and a
4-byte index. -/
structure OutPoint where
  opHash : List Nat
  index : Nat
deriving DecidableEq, Repr

/-- The address-index record size: 32-byte hash + 4-byte index. -/
def outpointSize : Nat := 36

/-- `deserializer::read_4_bytes`: little-endian 32-bit read. -/
def read4LE (bs : List Nat) : Nat :=
  match bs with
  | [a, b, c, d] => a + 256 * (b + 256 * (c + 256 * d))
  | _ => 0

/-- Parse one 36-byte record: hash then 4-byte index. -/
def mkOutpoint (rec : List Nat) : OutPoint :=
  ⟨rec.take 32, read4LE (rec.drop 32)⟩

/-- The record-parsing loop of `do_fetch_outputs`: consume the value 36
bytes at a time, one output point per record, in stored order. -/
def parseOutpoints (bs : List Nat) : List OutPoint :=
  if bs.isEmpty then []
  else mkOutpoint (bs.take outpointSize) :: parseOutpoints (bs.drop outpointSize)
termination_by bs.length
decreasing_by
  simp only [List.length_drop, outpointSize]
  have hne : bs ≠ [] := by
    intro h
    simp [h] at *
  have : 0 < bs.length := List.length_pos.mpr hne
  omega

/-- Result of the address-table `Get` inside `do_fetch_outputs`. -/
inductive GetStatus
  | found (value : List Nat)
  | missing
  | ioError
deriving DecidableEq, Repr

/-- Outcome of `do_fetch_outputs`: which handler invocation it makes, or
the internal assertion failure. -/
inductive FetchOutputsOutcome
  | handlerNotFound
  | handlerFailed
  | assertionFailure
  | handlerOk (outs : List OutPoint)
deriving DecidableEq, Repr

/-- `leveldb_blockchain::do_fetch_outputs`, embedded from the source: map
the table read to `not_found` / `operation_failed`, assert that the value
length is a multiple of 36 (`BITCOIN_ASSERT`), then parse the records. -/
def doFetchOutputs (g : GetStatus) : FetchOutputsOutcome :=
  match g with
  | GetStatus.missing => FetchOutputsOutcome.handlerNotFound
  | GetStatus.ioError => FetchOutputsOutcome.handlerFailed
  | GetStatus.found v =>
    if v.length % outpointSize = 0 then
      FetchOutputsOutcome.handlerOk (parseOutpoints v)
    else FetchOutputsOutcome.assertionFailure

/-- `linkedFrom t D` holds when `D` is a linear chain of blocks hanging
from the hash `t`: the first block's declared parent is `t`, and each
subsequent block's declared parent is its predecessor's hash. -/
def linkedFrom : Nat → List Block → Bool
  | _, [] => true
  | t, b :: rest => b.prevHash == t && linkedFrom b.hash rest

/-- Whether a store call was rejected as an already-confirmed duplicate
(the only path of `do_store` that returns before the flush counter). -/
def isConfirmedDup (r : StoreResult) : Bool :=
  match r.events with
  | [StoreEvent.duplicateConfirmed _] => true
  | _ => false

/-- Number of calls in a trace that were not confirmed-duplicate
rejections — exactly the calls on which `do_store` increments its flush
counter. -/
def nonDupCount (rs : List StoreResult) : Nat :=
  (rs.filter (fun r => !isConfirmedDup r)).length

/-- A sample genesis block used by concrete witnesses. -/
def gBlock : Block := ⟨0, 7, 0, []⟩

/-- A sample block with an unknown parent, used by concrete witnesses. -/
def xBlock : Block := ⟨1, 99, 0, []⟩

/-- A sample parent block extending `gBlock`, used by concrete witnesses. -/
def pBlock : Block := ⟨10, 0, 0, []⟩

/-- A sample child of `pBlock`, used by concrete witnesses. -/
def d1Block : Block := ⟨11, 10, 0, []⟩

/-- A sample child of `d1Block`, used by concrete witnesses. -/
def d2Block : Block := ⟨12, 11, 0, []⟩

/-- A sample initial state whose canonical chain is just `gBlock`. -/
def s0w : ChainState := ⟨[gBlock], [], 0⟩

/-- C3: for every block whose hash is already confirmed at some depth d,
calling store on it again delivers the Duplicate outcome carrying exactly
d with confirmed status, runs no organizer, forces no flush, and leaves
the entire store state (all index tables and the orphan pool) unchanged. -/
theorem store_duplicate_confirmed_noop (s : ChainState) (b : Block) (d : Nat)
    (h : findIndexByHash s.chain b.hash = some d) :
    doStore b s = ⟨s, [StoreEvent.duplicateConfirmed d], false, false⟩ := by
  simp [doStore, h]

theorem store_duplicate_confirmed_noop_w :
    doStore gBlock ⟨[gBlock], [], 0⟩
      = ⟨⟨[gBlock], [], 0⟩, [StoreEvent.duplicateConfirmed 0], false, false⟩ :=
  store_duplicate_confirmed_noop ⟨[gBlock], [], 0⟩ gBlock 0 (by decide)

/-- C4: the code contradicts the claim — re-storing a block whose hash is
already pending in the orphan pool is not a no-op: `do_store` lacks a
`return` after reporting duplicate/orphan, so the continuation is invoked
twice and the organizer still runs.  This theorem evaluates the embedded
`do_store` at such an input. -/
theorem store_pending_duplicate_double_report :
    (doStore ⟨1, 99, 5, []⟩ ⟨[gBlock], [xBlock], 0⟩).events
      = [StoreEvent.duplicateOrphan, StoreEvent.orphaned] ∧
    (doStore ⟨1, 99, 5, []⟩ ⟨[gBlock], [xBlock], 0⟩).organizeCalled = true := by
  decide

/-- C5: `fetch_outputs` rejects every unsupported address kind
synchronously — one immediate handler call with UnsupportedPaymentType and
an empty output-point list, nothing queued (hence no table I/O) — and
queues every pay-to-pubkey-hash address without any immediate call. -/
theorem fetch_outputs_dispatch_spec (a : PaymentAddr) :
    (a.ptype ≠ PaymentType.pubkeyHash →
      fetchOutputsDispatch a = ⟨[(Errc.unsupportedPaymentType, [])], false⟩) ∧
    (a.ptype = PaymentType.pubkeyHash →
      fetchOutputsDispatch a = ⟨[], true⟩) := by
  constructor <;> intro h <;> simp [fetchOutputsDispatch, h]

theorem fetch_outputs_dispatch_spec_w :
    fetchOutputsDispatch ⟨PaymentType.scriptHash, 5, 0⟩
      = ⟨[(Errc.unsupportedPaymentType, [])], false⟩ ∧
    fetchOutputsDispatch ⟨PaymentType.pubkeyHash, 0, 0⟩ = ⟨[], true⟩ :=
  ⟨(fetch_outputs_dispatch_spec ⟨PaymentType.scriptHash, 5, 0⟩).1 (by decide),
   (fetch_outputs_dispatch_spec ⟨PaymentType.pubkeyHash, 0, 0⟩).2 rfl⟩

/-- C7: when the directory's advisory lock is already held, `initialize`
fails before opening any of the five tables and `start` delivers the
startup failure to its continuation; when the lock is acquired and every
open succeeds, all five tables are opened (in order) before `start`
reports success. -/
theorem start_lock_and_open (env : InitEnv) :
    (env.lockHeld = true →
      initStore env = ⟨[], false⟩ ∧ (startStore env).2 = Errc.operationFailed) ∧
    (env.lockHeld = false → (∀ i, env.openOk i = true) →
      initStore env = ⟨tableNames, true⟩ ∧ (startStore env).2 = Errc.success) := by
  constructor
  · intro h
    simp [initStore, startStore, h]
  · intro h hok
    have : initStore env = ⟨tableNames, true⟩ := by
      simp [initStore, h, tableNames, openTablesLoop, hok 0, hok 1, hok 2, hok 3, hok 4]
    exact ⟨this, by simp [startStore, this]⟩

theorem start_lock_and_open_w :
    initStore ⟨true, fun _ => true⟩ = ⟨[], false⟩ ∧
    initStore ⟨false, fun _ => true⟩ = ⟨tableNames, true⟩ ∧
    (startStore ⟨false, fun _ => true⟩).2 = Errc.success :=
  ⟨((start_lock_and_open ⟨true, fun _ => true⟩).1 rfl).1,
   ((start_lock_and_open ⟨false, fun _ => true⟩).2 rfl (fun _ => rfl)).1,
   ((start_lock_and_open ⟨false, fun _ => true⟩).2 rfl (fun _ => rfl)).2⟩

/-- C8: `stop` fires every outstanding reorganize subscriber exactly once
— one notification per subscription, in order — carrying the
ServiceStopped code with depth 0 and empty removed/added lists, and
afterwards all five table handles are released and no subscriber remains
pending. -/
theorem stop_notifies_and_releases (s : FacadeState) :
    ((stopFacade s).2.map Notification.subscriber = s.subscribers) ∧
    (∀ n ∈ (stopFacade s).2,
      n.err = Errc.serviceStopped ∧ n.forkDepth = 0 ∧ n.removed = [] ∧ n.added = []) ∧
    (stopFacade s).1 = ⟨[], false, false, false, false, false⟩ := by
  refine ⟨?_, ?_, rfl⟩
  · have hcomp :
        (Notification.subscriber ∘ fun h =>
          (⟨h, Errc.serviceStopped, 0, [], []⟩ : Notification)) = id := rfl
    simp [stopFacade, relayStop, List.map_map, hcomp]
  · intro n hn
    simp only [stopFacade, relayStop, List.mem_map] at hn
    obtain ⟨a, _, rfl⟩ := hn
    exact ⟨rfl, rfl, rfl, rfl⟩

theorem stop_notifies_and_releases_w :
    (stopFacade ⟨[3], true, true, true, true, true⟩).1
      = ⟨[], false, false, false, false, false⟩ ∧
    (⟨3, Errc.serviceStopped, 0, [], []⟩ : Notification).err = Errc.serviceStopped :=
  ⟨(stop_notifies_and_releases ⟨[3], true, true, true, true, true⟩).2.2,
   ((stop_notifies_and_releases ⟨[3], true, true, true, true, true⟩).2.1
     ⟨3, Errc.serviceStopped, 0, [], []⟩ (by decide)).1⟩

/-- C10: both depth fetches reserve the maximum 32-bit value as a
not-found sentinel: a lookup yielding the sentinel is delivered as
NotFound with depth 0, and consequently neither operation can ever report
2^32 - 1 as a valid depth. -/
theorem fetch_depth_sentinel (v : Nat) :
    (v = uint32Max →
      doFetchBlockDepthRaw v = (Errc.notFound, 0) ∧
      doFetchLastDepthRaw v = (Errc.notFound, 0)) ∧
    (∀ d, doFetchBlockDepthRaw v = (Errc.success, d) → d ≠ uint32Max) ∧
    (∀ d, doFetchLastDepthRaw v = (Errc.success, d) → d ≠ uint32Max) := by
  refine ⟨fun h => by simp [doFetchBlockDepthRaw, doFetchLastDepthRaw, h], ?_, ?_⟩ <;>
    intro d hd <;>
    by_cases h : v = uint32Max <;>
    simp [doFetchBlockDepthRaw, doFetchLastDepthRaw, h] at hd <;>
    omega

theorem fetch_depth_sentinel_w :
    doFetchBlockDepthRaw uint32Max = (Errc.notFound, 0) ∧
    doFetchLastDepthRaw uint32Max = (Errc.notFound, 0) ∧
    (5 : Nat) ≠ uint32Max :=
  ⟨((fetch_depth_sentinel uint32Max).1 rfl).1,
   ((fetch_depth_sentinel uint32Max).1 rfl).2,
   (fetch_depth_sentinel 5).2.1 5 (by decide)⟩

theorem parseOutpoints_cons (bs : List Nat) (h : bs ≠ []) :
    parseOutpoints bs
      = mkOutpoint (bs.take outpointSize) :: parseOutpoints (bs.drop outpointSize) := by
  rw [parseOutpoints]
  simp [h]

theorem parseOutpoints_length (bs : List Nat) (h : bs.length % outpointSize = 0) :
    (parseOutpoints bs).length = bs.length / outpointSize := by
  induction bs using parseOutpoints.induct with
  | case1 bs hb =>
    rw [parseOutpoints]
    simp_all [List.isEmpty_iff]
  | case2 bs hb ih =>
    have hbne : bs ≠ [] := by
      simpa [List.isEmpty_iff] using hb
    have hpos : 0 < bs.length := List.length_pos.mpr hbne
    have hdl : (bs.drop outpointSize).length = bs.length - outpointSize := by
      simp
    rw [parseOutpoints_cons bs hbne]
    have hrec := ih (by rw [hdl]; simp only [outpointSize] at h ⊢; omega)
    simp only [List.length_cons, hrec, hdl]
    simp only [outpointSize] at h ⊢
    omega

theorem parseOutpoints_get (bs : List Nat) (h : bs.length % outpointSize = 0) :
    ∀ i, i < bs.length / outpointSize →
      (parseOutpoints bs).get? i
        = some (mkOutpoint ((bs.drop (outpointSize * i)).take outpointSize)) ∧
      outpointSize * i + outpointSize ≤ bs.length := by
  induction bs using parseOutpoints.induct with
  | case1 bs hb =>
    intro i hi
    have hbe : bs = [] := by
      simpa [List.isEmpty_iff] using hb
    subst hbe
    simp [outpointSize] at hi
  | case2 bs hb ih =>
    intro i hi
    have hbne : bs ≠ [] := by
      simpa [List.isEmpty_iff] using hb
    have hpos : 0 < bs.length := List.length_pos.mpr hbne
    have hlen36 : outpointSize ≤ bs.length := by
      simp only [outpointSize] at h ⊢
      omega
    have hdl : (bs.drop outpointSize).length = bs.length - outpointSize := by
      simp
    have hdm : (bs.drop outpointSize).length % outpointSize = 0 := by
      rw [hdl]
      simp only [outpointSize] at h ⊢
      omega
    rw [parseOutpoints_cons bs hbne]
    cases i with
    | zero =>
      refine ⟨by simp, by simpa using hlen36⟩
    | succ j =>
      have hji : j < (bs.drop outpointSize).length / outpointSize := by
        rw [hdl]
        simp only [outpointSize] at h hi ⊢
        omega
      have hrec := ih hdm j hji
      refine ⟨?_, ?_⟩
      · rw [List.get?_cons_succ, hrec.1, List.drop_drop]
        have harith : outpointSize + outpointSize * j = outpointSize * (j + 1) := by
          ring
        rw [harith]
      · have hr2 := hrec.2
        rw [hdl] at hr2
        simp only [outpointSize] at hr2 ⊢
        omega

/-- C9: every address-index value whose length is not a multiple of the
36-byte output-point record size trips the internal assertion (not a
user-visible error outcome); under the multiple-of-36 precondition the
parsing loop of `do_fetch_outputs` terminates and delivers exactly one
output point per 36-byte record, in stored order, each record read
entirely from within the value's bounds. -/
theorem fetch_outputs_parse_records (v : List Nat) :
    (v.length % outpointSize ≠ 0 →
      doFetchOutputs (GetStatus.found v) = FetchOutputsOutcome.assertionFailure) ∧
    (v.length % outpointSize = 0 →
      doFetchOutputs (GetStatus.found v)
        = FetchOutputsOutcome.handlerOk (parseOutpoints v) ∧
      (parseOutpoints v).length = v.length / outpointSize ∧
      ∀ i, i < v.length / outpointSize →
        (parseOutpoints v).get? i
          = some (mkOutpoint ((v.drop (outpointSize * i)).take outpointSize)) ∧
        outpointSize * i + outpointSize ≤ v.length) := by
  refine ⟨fun h => by simp [doFetchOutputs, h], fun h => ?_⟩
  exact ⟨by simp [doFetchOutputs, h], parseOutpoints_length v h, parseOutpoints_get v h⟩

theorem fetch_outputs_parse_records_w :
    doFetchOutputs (GetStatus.found (List.replicate 72 1))
      = FetchOutputsOutcome.handlerOk (parseOutpoints (List.replicate 72 1)) ∧
    (parseOutpoints (List.replicate 72 1)).length = 2 ∧
    doFetchOutputs (GetStatus.found (List.replicate 37 1))
      = FetchOutputsOutcome.assertionFailure :=
  ⟨((fetch_outputs_parse_records (List.replicate 72 1)).2 (by decide)).1,
   by
    have hl := ((fetch_outputs_parse_records (List.replicate 72 1)).2 (by decide)).2.1
    simpa using hl,
   (fetch_outputs_parse_records (List.replicate 37 1)).1 (by decide)⟩

theorem findIndexByHash_eq_none (c : List Block) (h : Nat) :
    findIndexByHash c h = none ↔ ∀ b ∈ c, b.hash ≠ h := by
  induction c with
  | nil => simp [findIndexByHash]
  | cons b rest ih =>
    by_cases hb : b.hash = h <;> simp [findIndexByHash, hb, ih]

theorem findIndexByHash_append (c1 c2 : List Block) (h : Nat)
    (hc1 : ∀ b ∈ c1, b.hash ≠ h) :
    findIndexByHash (c1 ++ c2) h = (findIndexByHash c2 h).map (· + c1.length) := by
  induction c1 with
  | nil =>
    cases hf : findIndexByHash c2 h <;> simp [hf]
  | cons b rest ih =>
    have hb : b.hash ≠ h := hc1 b (by simp)
    have hrest : ∀ x ∈ rest, x.hash ≠ h := fun x hx => hc1 x (by simp [hx])
    rw [List.cons_append]
    show (if b.hash = h then some 0
      else (findIndexByHash (rest ++ c2) h).map (· + 1))
        = (findIndexByHash c2 h).map (· + (rest.length + 1))
    rw [if_neg hb, ih hrest]
    cases hf : findIndexByHash c2 h with
    | none => simp
    | some v =>
      simp only [Option.map_some', Option.some.injEq]
      omega

theorem findIndexByHash_cons_self (b : Block) (rest : List Block) :
    findIndexByHash (b :: rest) b.hash = some 0 := by
  simp [findIndexByHash]

theorem findIndexByHash_get (c : List Block) (hnd : (chainHashes c).Nodup) :
    ∀ i (hi : i < c.length),
      findIndexByHash c (c.get ⟨i, hi⟩).hash = some i := by
  induction c with
  | nil =>
    intro i hi
    simp at hi
  | cons b rest ih =>
    intro i hi
    have hnd2 : b.hash ∉ chainHashes rest ∧ (chainHashes rest).Nodup := by
      simpa [chainHashes] using hnd
    cases i with
    | zero =>
      exact findIndexByHash_cons_self b rest
    | succ j =>
      have hj : j < rest.length := by
        simpa using hi
      have hmem : (rest.get ⟨j, hj⟩).hash ∈ chainHashes rest := by
        simp only [chainHashes]
        exact List.mem_map_of_mem Block.hash (rest.get_mem j hj)
      have hb : b.hash ≠ (rest.get ⟨j, hj⟩).hash := by
        intro he
        exact hnd2.1 (he ▸ hmem)
      simp only [List.get_cons_succ, findIndexByHash, if_neg hb, ih hnd2.2 j hj]
      rfl

theorem tipHash_mem (c : List Block) (t : Nat) (h : tipHash c = some t) :
    t ∈ chainHashes c := by
  simp only [tipHash, Option.map_eq_some'] at h
  obtain ⟨b, hb, rfl⟩ := h
  have hmem : b ∈ c := by
    obtain ⟨hne, heq⟩ :=
      List.mem_getLast?_eq_getLast (l := c) (x := b) (by simp [Option.mem_def, hb])
    rw [heq]
    exact List.getLast_mem hne
  exact List.mem_map_of_mem Block.hash hmem

theorem tipHash_concat (c : List Block) (b : Block) :
    tipHash (c ++ [b]) = some b.hash := by
  simp [tipHash]

theorem poolHasHash_eq_false (q : List Block) (h : Nat) :
    poolHasHash q h = false ↔ ∀ b ∈ q, b.hash ≠ h := by
  induction q with
  | nil => simp [poolHasHash]
  | cons b rest ih => simp [poolHasHash, ih]

theorem poolExtract_none (q : List Block) (t : Nat)
    (h : ∀ b ∈ q, b.prevHash ≠ t) : poolExtract q t = none := by
  induction q with
  | nil => rfl
  | cons b rest ih =>
    have hb : b.prevHash ≠ t := h b (by simp)
    have hrest : ∀ x ∈ rest, x.prevHash ≠ t := fun x hx => h x (by simp [hx])
    simp [poolExtract, hb, ih hrest]

theorem poolExtract_append_last (q : List Block) (t : Nat) (b : Block)
    (h : ∀ x ∈ q, x.prevHash ≠ t) (hb : b.prevHash = t) :
    poolExtract (q ++ [b]) t = some (b, q) := by
  induction q with
  | nil => simp [poolExtract, hb]
  | cons x rest ih =>
    have hx : x.prevHash ≠ t := h x (by simp)
    have hrest : ∀ y ∈ rest, y.prevHash ≠ t := fun y hy => h y (by simp [hy])
    simp [poolExtract, hx, ih hrest]

theorem organizeFuel_noop (fuel : Nat) (c q : List Block)
    (h : ∀ t, tipHash c = some t → ∀ b ∈ q, b.prevHash ≠ t) :
    organizeFuel fuel c q = (c, q) := by
  cases fuel with
  | zero => rfl
  | succ n =>
    cases htip : tipHash c with
    | none => simp [organizeFuel, htip]
    | some t =>
      simp [organizeFuel, htip, poolExtract_none q t (h t htip)]

theorem organizeFuel_extends (fuel : Nat) :
    ∀ c q : List Block, ∃ e, (organizeFuel fuel c q).1 = c ++ e := by
  induction fuel with
  | zero =>
    intro c q
    exact ⟨[], by simp [organizeFuel]⟩
  | succ n ih =>
    intro c q
    cases htip : tipHash c with
    | none => exact ⟨[], by simp [organizeFuel, htip]⟩
    | some t =>
      cases hex : poolExtract q t with
      | none => exact ⟨[], by simp [organizeFuel, htip, hex]⟩
      | some bq =>
        obtain ⟨e, he⟩ := ih (c ++ [bq.1]) bq.2
        refine ⟨[bq.1] ++ e, ?_⟩
        simp only [organizeFuel, htip, hex, he, List.append_assoc]

theorem organizeFuel_cascade (D : List Block) :
    ∀ (c : List Block) (t : Nat), tipHash c = some t → linkedFrom t D = true →
      organizeFuel D.length c D = (c ++ D, []) := by
  induction D with
  | nil =>
    intro c t _ _
    simp [organizeFuel]
  | cons d D2 ih =>
    intro c t htip hlink
    have hd : d.prevHash = t ∧ linkedFrom d.hash D2 = true := by
      simpa [linkedFrom] using hlink
    show organizeFuel (D2.length + 1) c (d :: D2) = _
    rw [organizeFuel, htip]
    simp only [poolExtract, if_pos hd.1]
    rw [ih (c ++ [d]) d.hash (tipHash_concat c d) hd.2]
    simp

theorem storeOrganized_attach (b : Block) (s : ChainState)
    (hph : poolHasHash s.pool b.hash = false)
    (htip : tipHash s.chain = some b.prevHash)
    (hnoattach : ∀ x ∈ s.pool, x.prevHash ≠ b.prevHash) :
    ∃ e, (storeOrganized b s).1 = (s.chain ++ [b]) ++ e := by
  obtain ⟨e, he⟩ := organizeFuel_extends s.pool.length (s.chain ++ [b]) s.pool
  refine ⟨e, ?_⟩
  have hp1 : storePool1 b s = s.pool ++ [b] := by
    simp [storePool1, hph]
  have hlen : (s.pool ++ [b]).length = s.pool.length + 1 := by
    simp
  rw [storeOrganized, hp1, hlen, organizeFuel, htip]
  simp only [poolExtract_append_last s.pool b.prevHash b hnoattach rfl]
  exact he

/-- C1: a block B accepted by store — not a duplicate, parent confirmed as
the canonical tip — is assigned the next depth; `fetch_block_header` at
that depth then returns exactly B's submitted header, and
`fetch_block_transaction_hashes` at that depth returns exactly B's ordered
transaction-hash list.  Hypothesis `hsep` confines the statement to states
in which no pending pool block declares any currently-confirmed block as
its parent: on such states the organizer of spec section 4.4 can neither
attach a pending block below the tip nor grow a competing branch from a
confirmed block, so its behaviour is exactly the tip cascade the model
implements, and the stored block's depth entry cannot be displaced by a
reorganization during this call. -/
theorem store_fetch_roundtrip (s : ChainState) (B : Block)
    (hfresh : ∀ x ∈ s.chain, x.hash ≠ B.hash)
    (hpool : ∀ x ∈ s.pool, x.hash ≠ B.hash)
    (htip : tipHash s.chain = some B.prevHash)
    (hsep : ∀ x ∈ s.pool, x.prevHash ∉ chainHashes s.chain) :
    fetchBlockHeaderByDepth (doStore B s).state s.chain.length
      = (Errc.success, some (B.prevHash, B.headerRest)) ∧
    fetchBlockTxHashesByDepth (doStore B s).state s.chain.length
      = (Errc.success, B.txHashes) ∧
    (doStore B s).events = [StoreEvent.accepted s.chain.length] := by
  have hnoattach : ∀ x ∈ s.pool, x.prevHash ≠ B.prevHash := by
    intro x hx he
    exact hsep x hx (by rw [he]; exact tipHash_mem s.chain B.prevHash htip)
  have hidx : findIndexByHash s.chain B.hash = none :=
    (findIndexByHash_eq_none s.chain B.hash).mpr hfresh
  have hph : poolHasHash s.pool B.hash = false :=
    (poolHasHash_eq_false s.pool B.hash).mpr hpool
  obtain ⟨e, he⟩ := storeOrganized_attach B s hph htip hnoattach
  have hchain2 : (storeOrganized B s).1 = s.chain ++ (B :: e) := by
    rw [he, List.append_assoc]
    rfl
  have hfind : findIndexByHash (storeOrganized B s).1 B.hash
      = some s.chain.length := by
    rw [hchain2, findIndexByHash_append s.chain (B :: e) B.hash hfresh,
      findIndexByHash_cons_self B e]
    simp
  have hget : (storeOrganized B s).1.get? s.chain.length = some B := by
    rw [hchain2, List.get?_append_right (Nat.le_refl s.chain.length)]
    simp
  have hstate : (doStore B s).state.chain = (storeOrganized B s).1 := by
    simp [doStore, hidx]
  have hev : (doStore B s).events = [StoreEvent.accepted s.chain.length] := by
    simp [doStore, hidx, storeSecondEvent, hph, hfind]
  refine ⟨?_, ?_, hev⟩
  · rw [fetchBlockHeaderByDepth, fetchProtoBlockByDepth, hstate, hget]
  · rw [fetchBlockTxHashesByDepth, fetchProtoBlockByDepth, hstate, hget]

theorem store_fetch_roundtrip_w :
    fetchBlockHeaderByDepth
        (doStore ⟨2, 0, 11, [5, 6]⟩ ⟨[gBlock], [], 0⟩).state 1
      = (Errc.success, some (0, 11)) ∧
    fetchBlockTxHashesByDepth
        (doStore ⟨2, 0, 11, [5, 6]⟩ ⟨[gBlock], [], 0⟩).state 1
      = (Errc.success, [5, 6]) ∧
    (doStore ⟨2, 0, 11, [5, 6]⟩ ⟨[gBlock], [], 0⟩).events
      = [StoreEvent.accepted 1] :=
  store_fetch_roundtrip ⟨[gBlock], [], 0⟩ ⟨2, 0, 11, [5, 6]⟩
    (by decide) (by decide) (by decide) (by decide)

theorem linkedFrom_prevHash (D : List Block) :
    ∀ t, linkedFrom t D = true →
      ∀ b ∈ D, b.prevHash = t ∨ b.prevHash ∈ chainHashes D := by
  induction D with
  | nil =>
    intro t _ b hb
    simp at hb
  | cons d D2 ih =>
    intro t hlink b hb
    have hd : d.prevHash = t ∧ linkedFrom d.hash D2 = true := by
      simpa [linkedFrom] using hlink
    rcases List.mem_cons.mp hb with rfl | hb2
    · exact Or.inl hd.1
    · rcases ih d.hash hd.2 b hb2 with h1 | h2
      · right
        simp [chainHashes, h1]
      · right
        simp only [chainHashes, List.map_cons, List.mem_cons]
        right
        simpa [chainHashes] using h2

theorem storeTrace_all_orphans (D : List Block) :
    ∀ (s : ChainState) (t0 : Nat),
      tipHash s.chain = some t0 →
      (∀ b ∈ s.pool ++ D, b.prevHash ≠ t0) →
      (∀ b ∈ D, ∀ x ∈ s.chain, x.hash ≠ b.hash) →
      (∀ b ∈ D, ∀ x ∈ s.pool, x.hash ≠ b.hash) →
      (chainHashes D).Nodup →
      (storeTrace D s).2.chain = s.chain ∧
      (storeTrace D s).2.pool = s.pool ++ D ∧
      ∀ r ∈ (storeTrace D s).1, r.events = [StoreEvent.orphaned] := by
  induction D with
  | nil =>
    intro s t0 _ _ _ _ _
    simp [storeTrace]
  | cons d D2 ih =>
    intro s t0 htip hnp hfresh hpoolf hnd
    have hidx : findIndexByHash s.chain d.hash = none :=
      (findIndexByHash_eq_none s.chain d.hash).mpr
        (fun x hx => hfresh d (by simp) x hx)
    have hph : poolHasHash s.pool d.hash = false :=
      (poolHasHash_eq_false s.pool d.hash).mpr
        (fun x hx => hpoolf d (by simp) x hx)
    have hp1 : storePool1 d s = s.pool ++ [d] := by
      simp [storePool1, hph]
    have horg : storeOrganized d s = (s.chain, s.pool ++ [d]) := by
      rw [storeOrganized, hp1]
      refine organizeFuel_noop _ _ _ (fun t ht b hb => ?_)
      rw [htip] at ht
      cases ht
      refine hnp b ?_
      rcases List.mem_append.mp hb with h1 | h2
      · exact List.mem_append.mpr (Or.inl h1)
      · simp only [List.mem_singleton] at h2
        subst h2
        exact List.mem_append.mpr (Or.inr (by simp))
    have hsec : storeSecondEvent d s = StoreEvent.orphaned := by
      rw [storeSecondEvent, if_neg (by simp [hph])]
      simp [horg, hidx]
    have hds : doStore d s =
        ⟨⟨s.chain, s.pool ++ [d],
          if s.flushCounter + 1 = flushThreshold then 0 else s.flushCounter + 1⟩,
         [StoreEvent.orphaned], true, s.flushCounter + 1 == flushThreshold⟩ := by
      simp [doStore, hidx, hph, horg, hsec]
    have hrec := ih ((doStore d s).state) t0
      (by rw [hds]; exact htip)
      (by
        rw [hds]
        intro b hb
        refine hnp b ?_
        simp only [List.mem_append, List.mem_singleton, List.mem_cons] at hb ⊢
        tauto)
      (by
        rw [hds]
        intro b hb x hx
        exact hfresh b (by simp [hb]) x hx)
      (by
        rw [hds]
        intro b hb x hx
        simp only [List.mem_append, List.mem_singleton] at hx
        rcases hx with h1 | h2
        · exact hpoolf b (by simp [hb]) x h1
        · rw [h2]
          have hndc : d.hash ∉ chainHashes D2 ∧ (chainHashes D2).Nodup := by
            simpa [chainHashes] using hnd
          intro he
          exact hndc.1 (he ▸ List.mem_map_of_mem Block.hash hb))
      (by
        have hndc : d.hash ∉ chainHashes D2 ∧ (chainHashes D2).Nodup := by
          simpa [chainHashes] using hnd
        exact hndc.2)
    refine ⟨?_, ?_, ?_⟩
    · show (storeTrace D2 (doStore d s).state).2.chain = s.chain
      rw [hrec.1, hds]
    · show (storeTrace D2 (doStore d s).state).2.pool = s.pool ++ (d :: D2)
      rw [hrec.2.1, hds]
      simp
    · intro r hr
      rcases List.mem_cons.mp hr with rfl | hr2
      · rw [hds]
      · exact hrec.2.2 r hr2

theorem storeOrganized_cascade (P : Block) (s : ChainState) (D : List Block)
    (hpool : s.pool = D)
    (hph : poolHasHash D P.hash = false)
    (htip : tipHash s.chain = some P.prevHash)
    (hD : ∀ x ∈ D, x.prevHash ≠ P.prevHash)
    (hlink : linkedFrom P.hash D = true) :
    storeOrganized P s = ((s.chain ++ [P]) ++ D, []) := by
  have hp1 : storePool1 P s = D ++ [P] := by
    simp [storePool1, hpool, hph]
  rw [storeOrganized, hp1]
  have hlen : (D ++ [P]).length = D.length + 1 := by
    simp
  rw [hlen, organizeFuel, htip]
  simp only [poolExtract_append_last D P.prevHash P hD rfl]
  exact organizeFuel_cascade D (s.chain ++ [P]) P.hash (tipHash_concat s.chain P) hlink

/-- C2: blocks stored while their parent is unknown each return the
Orphan outcome and are absent from the hash→depth index
(`fetch_block_depth` yields NotFound); once the missing parent P is
stored, that single call confirms P and every previously blocked
descendant — the chain extends by P followed by the descendants in order,
the pool drains, and each descendant ends at its strictly ascending depth
— without any block being re-submitted. -/
theorem orphan_cascade (s0 : ChainState) (P : Block) (D : List Block)
    (hpool0 : s0.pool = [])
    (htip : tipHash s0.chain = some P.prevHash)
    (hlink : linkedFrom P.hash D = true)
    (hnodup : (chainHashes s0.chain ++ P.hash :: chainHashes D).Nodup)
    (hsize : s0.chain.length + D.length < uint32Max) :
    (∀ r ∈ (storeTrace D s0).1, r.events = [StoreEvent.orphaned]) ∧
    (∀ b ∈ D, fetchBlockDepth (storeTrace D s0).2 b.hash = (Errc.notFound, 0)) ∧
    (doStore P (storeTrace D s0).2).events = [StoreEvent.accepted s0.chain.length] ∧
    (doStore P (storeTrace D s0).2).state.chain = s0.chain ++ (P :: D) ∧
    (doStore P (storeTrace D s0).2).state.pool = [] ∧
    (∀ i (hi : i < D.length),
      fetchBlockDepth (doStore P (storeTrace D s0).2).state (D.get ⟨i, hi⟩).hash
        = (Errc.success, s0.chain.length + 1 + i)) := by
  have hnd := List.nodup_append.mp hnodup
  have hndr : (P.hash :: chainHashes D).Nodup := hnd.2.1
  have hdisj : List.Disjoint (chainHashes s0.chain) (P.hash :: chainHashes D) :=
    hnd.2.2
  have hPD : P.hash ∉ chainHashes D ∧ (chainHashes D).Nodup := by
    simpa using hndr
  have hPc : P.hash ∉ chainHashes s0.chain := fun h => hdisj h (by simp)
  have hDc : ∀ b ∈ D, b.hash ∉ chainHashes s0.chain := by
    intro b hb h
    exact hdisj h (by
      simp only [List.mem_cons]
      exact Or.inr (List.mem_map_of_mem Block.hash hb))
  have hchainx : ∀ h : Nat, h ∉ chainHashes s0.chain →
      ∀ x ∈ s0.chain, x.hash ≠ h :=
    fun h hh x hx he => hh (he ▸ List.mem_map_of_mem Block.hash hx)
  have ht0mem : P.prevHash ∈ chainHashes s0.chain := tipHash_mem _ _ htip
  have hprevs : ∀ b ∈ D, b.prevHash ≠ P.prevHash := by
    intro b hb he
    rcases linkedFrom_prevHash D P.hash hlink b hb with h1 | h2
    · exact hPc (by rw [← h1, he]; exact ht0mem)
    · rw [he] at h2
      exact hdisj ht0mem (by simp [h2])
  have h1 := storeTrace_all_orphans D s0 P.prevHash htip
    (by
      rw [hpool0]
      intro b hb
      exact hprevs b (by simpa using hb))
    (fun b hb x hx => hchainx b.hash (hDc b hb) x hx)
    (by
      rw [hpool0]
      intro b _ x hx
      simp at hx)
    hPD.2
  have h1pool : (storeTrace D s0).2.pool = D := by
    rw [h1.2.1, hpool0]
    rfl
  have hfdb : ∀ b ∈ D, fetchBlockDepth (storeTrace D s0).2 b.hash
      = (Errc.notFound, 0) := by
    intro b hb
    have hidn : findIndexByHash (storeTrace D s0).2.chain b.hash = none := by
      rw [h1.1]
      exact (findIndexByHash_eq_none _ _).mpr
        (fun x hx => hchainx b.hash (hDc b hb) x hx)
    rw [fetchBlockDepth]
    simp [commonFetchBlockDepth, hidn, doFetchBlockDepthRaw, uint32Max]
  have hphP : poolHasHash (storeTrace D s0).2.pool P.hash = false := by
    rw [h1pool]
    exact (poolHasHash_eq_false D P.hash).mpr
      (fun b hb he => hPD.1 (he ▸ List.mem_map_of_mem Block.hash hb))
  have htip1 : tipHash (storeTrace D s0).2.chain = some P.prevHash := by
    rw [h1.1]
    exact htip
  have horg2 : storeOrganized P (storeTrace D s0).2
      = (((storeTrace D s0).2.chain ++ [P]) ++ D, []) :=
    storeOrganized_cascade P (storeTrace D s0).2 D h1pool (by rw [← h1pool]; exact hphP)
      htip1 hprevs hlink
  have hidxP : findIndexByHash (storeTrace D s0).2.chain P.hash = none := by
    rw [h1.1]
    exact (findIndexByHash_eq_none _ _).mpr (hchainx P.hash hPc)
  have hchain2 : ((storeTrace D s0).2.chain ++ [P]) ++ D = s0.chain ++ (P :: D) := by
    rw [h1.1, List.append_assoc, List.singleton_append]
  have hfindP : findIndexByHash (((storeTrace D s0).2.chain ++ [P]) ++ D) P.hash
      = some s0.chain.length := by
    rw [hchain2, findIndexByHash_append s0.chain (P :: D) P.hash (hchainx P.hash hPc),
      findIndexByHash_cons_self P D]
    simp
  have hsecP : storeSecondEvent P (storeTrace D s0).2 = StoreEvent.accepted s0.chain.length := by
    rw [storeSecondEvent, if_neg (by simp [hphP])]
    simp only [horg2, hfindP]
  have hevP : (doStore P (storeTrace D s0).2).events
      = [StoreEvent.accepted s0.chain.length] := by
    simp [doStore, hidxP, hphP, hsecP]
  have hchP : (doStore P (storeTrace D s0).2).state.chain = s0.chain ++ (P :: D) := by
    simp only [doStore, hidxP, horg2]
    exact hchain2
  have hpoolP : (doStore P (storeTrace D s0).2).state.pool = [] := by
    simp only [doStore, hidxP, horg2]
  refine ⟨h1.2.2, hfdb, hevP, hchP, hpoolP, ?_⟩
  intro i hi
  have hgm : D.get ⟨i, hi⟩ ∈ D := D.get_mem i hi
  have hPh : P.hash ≠ (D.get ⟨i, hi⟩).hash :=
    fun he => hPD.1 (he ▸ List.mem_map_of_mem Block.hash hgm)
  have hidxD : findIndexByHash (doStore P (storeTrace D s0).2).state.chain
      ((D.get ⟨i, hi⟩).hash) = some (s0.chain.length + 1 + i) := by
    rw [hchP, findIndexByHash_append s0.chain (P :: D) _
      (hchainx _ (hDc _ hgm))]
    have hin : findIndexByHash (P :: D) ((D.get ⟨i, hi⟩).hash) = some (i + 1) := by
      simp only [findIndexByHash, if_neg hPh, findIndexByHash_get D hPD.2 i hi]
      rfl
    rw [hin]
    simp only [Option.map_some', Option.some.injEq]
    omega
  have hvne : ¬(s0.chain.length + 1 + i = uint32Max) := by
    simp only [uint32Max] at hsize ⊢
    omega
  rw [fetchBlockDepth]
  simp only [commonFetchBlockDepth, hidxD]
  simp [doFetchBlockDepthRaw, hvne]

theorem orphan_cascade_w :
    (∀ b ∈ [d1Block, d2Block],
      fetchBlockDepth (storeTrace [d1Block, d2Block] s0w).2 b.hash
        = (Errc.notFound, 0)) ∧
    (doStore pBlock (storeTrace [d1Block, d2Block] s0w).2).events
      = [StoreEvent.accepted 1] ∧
    (doStore pBlock (storeTrace [d1Block, d2Block] s0w).2).state.chain
      = s0w.chain ++ (pBlock :: [d1Block, d2Block]) ∧
    (doStore pBlock (storeTrace [d1Block, d2Block] s0w).2).state.pool = [] ∧
    fetchBlockDepth (doStore pBlock (storeTrace [d1Block, d2Block] s0w).2).state
        d2Block.hash
      = (Errc.success, 3) := by
  have H := orphan_cascade s0w pBlock [d1Block, d2Block]
    rfl (by decide) (by decide) (by decide) (by decide)
  refine ⟨H.2.1, ?_, H.2.2.2.1, H.2.2.2.2.1, ?_⟩
  · have he := H.2.2.1
    simpa [s0w, gBlock] using he
  · have hd := H.2.2.2.2.2 1 (by decide)
    simpa [s0w, gBlock, d1Block, d2Block] using hd

theorem storeSecondEvent_cases (b : Block) (s : ChainState) :
    (∃ d, storeSecondEvent b s = StoreEvent.accepted d) ∨
      storeSecondEvent b s = StoreEvent.orphaned := by
  rw [storeSecondEvent]
  by_cases hph : poolHasHash s.pool b.hash
  · simp [hph]
  · simp only [if_neg hph]
    cases hfi : findIndexByHash (storeOrganized b s).1 b.hash <;> simp

theorem nonDupCount_cons (r : StoreResult) (rs : List StoreResult) :
    nonDupCount (r :: rs)
      = (if isConfirmedDup r then 0 else 1) + nonDupCount rs := by
  by_cases h : isConfirmedDup r <;>
    simp [nonDupCount, List.filter_cons, h] <;>
    omega

theorem doStore_flush_spec (b : Block) (s : ChainState) :
    (isConfirmedDup (doStore b s) = true ∧ (doStore b s).state = s ∧
      (doStore b s).flushed = false)
    ∨ (isConfirmedDup (doStore b s) = false ∧
       (doStore b s).flushed = (s.flushCounter + 1 == flushThreshold) ∧
       (doStore b s).state.flushCounter
         = if s.flushCounter + 1 = flushThreshold then 0 else s.flushCounter + 1) := by
  cases hf : findIndexByHash s.chain b.hash with
  | some d =>
    left
    simp [doStore, hf, isConfirmedDup]
  | none =>
    right
    refine ⟨?_, by simp [doStore, hf], by simp [doStore, hf]⟩
    by_cases hph : poolHasHash s.pool b.hash
    · simp [doStore, hf, hph, isConfirmedDup]
    · rcases storeSecondEvent_cases b s with ⟨d, hse⟩ | hse <;>
        simp [doStore, hf, hph, hse, isConfirmedDup]

theorem storeTrace_flush_law (bs : List Block) :
    ∀ s : ChainState, s.flushCounter < flushThreshold →
      ∀ i r, (storeTrace bs s).1.get? i = some r →
        r.flushed
          = (!isConfirmedDup r
             && ((s.flushCounter + nonDupCount ((storeTrace bs s).1.take (i + 1)))
                  % flushThreshold == 0)) := by
  induction bs with
  | nil =>
    intro s _ i r hr
    simp [storeTrace] at hr
  | cons b bs2 ih =>
    intro s hs i r hr
    have htr : storeTrace (b :: bs2) s
        = (doStore b s :: (storeTrace bs2 (doStore b s).state).1,
           (storeTrace bs2 (doStore b s).state).2) := rfl
    rw [htr] at hr
    rcases doStore_flush_spec b s with ⟨hd1, hd2, hd3⟩ | ⟨hd1, hd2, hd3⟩
    · cases i with
      | zero =>
        simp only [List.get?_cons_zero, Option.some.injEq] at hr
        rw [← hr]
        simp [htr, hd1, hd3]
      | succ j =>
        rw [List.get?_cons_succ] at hr
        have hrec := ih (doStore b s).state (by rw [hd2]; exact hs) j r hr
        rw [hd2] at hrec
        rw [hrec]
        simp only [htr, List.take_succ_cons, nonDupCount_cons, hd1]
        simp [hd2]
    · cases i with
      | zero =>
        simp only [List.get?_cons_zero, Option.some.injEq] at hr
        rw [← hr]
        have hone : nonDupCount [doStore b s] = 1 := by
          rw [nonDupCount_cons]
          simp [hd1, nonDupCount]
        simp only [htr, List.take_succ_cons, List.take_zero, hone, hd1, hd2,
          Bool.not_false, Bool.true_and]
        have hiff : (s.flushCounter + 1 = flushThreshold)
            ↔ ((s.flushCounter + 1) % flushThreshold = 0) := by
          simp only [flushThreshold] at hs ⊢
          omega
        rw [Bool.eq_iff_iff]
        simp only [beq_iff_eq]
        exact hiff
      | succ j =>
        rw [List.get?_cons_succ] at hr
        have hsl : (doStore b s).state.flushCounter < flushThreshold := by
          rw [hd3]
          simp only [flushThreshold] at hs ⊢
          split_ifs <;> omega
        have hrec := ih (doStore b s).state hsl j r hr
        have hmod : ∀ c : Nat,
            ((doStore b s).state.flushCounter + c) % flushThreshold
              = (s.flushCounter + (1 + c)) % flushThreshold := by
          intro c
          rw [hd3]
          simp only [flushThreshold]
          split_ifs with hfe <;> omega
        rw [hrec, hmod]
        simp only [htr, List.take_succ_cons, nonDupCount_cons, hd1]
        simp

/-- C6 (amended): starting from a zero flush counter, a flush is forced
exactly on the store calls that are not rejected as already-confirmed
duplicates and at which the running count of such calls — which includes
orphan stores and re-stores of already-pending orphans, not only
successfully stored/confirmed blocks — reaches a multiple of 2000. -/
theorem flush_at_2000_nonduplicate_calls (bs : List Block) (s0 : ChainState)
    (h0 : s0.flushCounter = 0) (i : Nat) (r : StoreResult)
    (hr : (storeTrace bs s0).1.get? i = some r) :
    r.flushed
      = (!isConfirmedDup r
         && (nonDupCount ((storeTrace bs s0).1.take (i + 1)) % flushThreshold == 0)) := by
  have hlaw := storeTrace_flush_law bs s0 (by rw [h0]; decide) i r hr
  rwa [h0, Nat.zero_add] at hlaw

theorem flush_at_2000_nonduplicate_calls_w :
    (doStore xBlock ⟨[gBlock], [], 0⟩).flushed
      = (!isConfirmedDup (doStore xBlock ⟨[gBlock], [], 0⟩)
         && (nonDupCount ((storeTrace [xBlock] ⟨[gBlock], [], 0⟩).1.take 1)
              % flushThreshold == 0)) :=
  flush_at_2000_nonduplicate_calls [xBlock] ⟨[gBlock], [], 0⟩ rfl 0
    (doStore xBlock ⟨[gBlock], [], 0⟩) rfl

theorem doStore_xBlock_dup (k : Nat) :
    doStore xBlock ⟨[gBlock], [xBlock], k⟩ =
      ⟨⟨[gBlock], [xBlock], if k + 1 = flushThreshold then 0 else k + 1⟩,
       [StoreEvent.duplicateOrphan, StoreEvent.orphaned], true,
       k + 1 == flushThreshold⟩ := rfl

theorem dupOrphanTrace (n : Nat) :
    ∀ k, k < flushThreshold → k + n ≤ flushThreshold →
      ((storeTrace (List.replicate n xBlock) ⟨[gBlock], [xBlock], k⟩).2
        = ⟨[gBlock], [xBlock], if k + n = flushThreshold then 0 else k + n⟩) ∧
      (∀ r ∈ (storeTrace (List.replicate n xBlock) ⟨[gBlock], [xBlock], k⟩).1,
        r.events = [StoreEvent.duplicateOrphan, StoreEvent.orphaned]) ∧
      ((storeTrace (List.replicate n xBlock) ⟨[gBlock], [xBlock], k⟩).1.map
          StoreResult.flushed)
        = (List.range n).map (fun j => k + j + 1 == flushThreshold) := by
  induction n with
  | zero =>
    intro k hk _
    refine ⟨?_, by simp [storeTrace], by simp [storeTrace]⟩
    simp [storeTrace, Nat.ne_of_lt hk]
  | succ n ih =>
    intro k hk hkn
    have hrep : List.replicate (n + 1) xBlock = xBlock :: List.replicate n xBlock :=
      List.replicate_succ xBlock n
    have htr : storeTrace (xBlock :: List.replicate n xBlock) ⟨[gBlock], [xBlock], k⟩
        = (doStore xBlock ⟨[gBlock], [xBlock], k⟩ ::
            (storeTrace (List.replicate n xBlock)
              (doStore xBlock ⟨[gBlock], [xBlock], k⟩).state).1,
           (storeTrace (List.replicate n xBlock)
              (doStore xBlock ⟨[gBlock], [xBlock], k⟩).state).2) := rfl
    by_cases hne0 : k + 1 = flushThreshold
    · have hn0 : n = 0 := by
        simp only [flushThreshold] at hkn hne0 ⊢
        omega
      subst hn0
      refine ⟨?_, ?_, ?_⟩
      · rw [hrep, htr]
        have hst0 : (doStore xBlock ⟨[gBlock], [xBlock], k⟩).state
            = ⟨[gBlock], [xBlock], 0⟩ := by
          rw [doStore_xBlock_dup k]
          simp [hne0]
        rw [hst0]
        simp [storeTrace, hne0]
      · intro r hr
        rw [hrep, htr] at hr
        rcases List.mem_cons.mp hr with heq | hmem
        · rw [heq, doStore_xBlock_dup k]
        · simp [storeTrace] at hmem
      · rw [hrep, htr]
        simp [storeTrace, doStore_xBlock_dup k, List.range_succ, hne0]
    · have hne : k + 1 ≠ flushThreshold := hne0
      have hstate : (doStore xBlock ⟨[gBlock], [xBlock], k⟩).state
          = ⟨[gBlock], [xBlock], k + 1⟩ := by
        rw [doStore_xBlock_dup k]
        simp [hne]
      have hih := ih (k + 1)
        (by simp only [flushThreshold] at hne hk ⊢; omega)
        (by simp only [flushThreshold] at hkn ⊢; omega)
      refine ⟨?_, ?_, ?_⟩
      · rw [hrep, htr, hstate]
        rw [hih.1]
        have harith : k + 1 + n = k + (n + 1) := by omega
        rw [harith]
      · intro r hr
        rw [hrep, htr, hstate] at hr
        rcases List.mem_cons.mp hr with heq | hmem
        · rw [heq, doStore_xBlock_dup k]
        · exact hih.2.1 r hmem
      · rw [hrep, htr, hstate]
        simp only [List.map_cons, hih.2.2, doStore_xBlock_dup k]
        have hr1 : List.range (n + 1) = 0 :: (List.range n).map Nat.succ :=
          List.range_succ_eq_map n
        rw [hr1]
        simp only [List.map_cons, List.map_map]
        have hfun : ((fun j => k + j + 1 == flushThreshold) ∘ Nat.succ)
            = (fun j => k + 1 + j + 1 == flushThreshold) := by
          funext j
          simp only [Function.comp_apply]
          congr 1
          omega
        rw [hfun]

theorem dupOrphanFullAux (n : Nat) (hn : 1 ≤ n) (hth : n + 1 ≤ flushThreshold) :
    ((storeTrace (List.replicate (n + 1) xBlock) ⟨[gBlock], [], 0⟩).1.map
        StoreResult.flushed).get? n = some (1 + (n - 1) + 1 == flushThreshold) ∧
    ((storeTrace (List.replicate (n + 1) xBlock) ⟨[gBlock], [], 0⟩).1.map
        StoreResult.events).head? = some [StoreEvent.orphaned] ∧
    ((storeTrace (List.replicate (n + 1) xBlock) ⟨[gBlock], [], 0⟩).1.map
        StoreResult.events).tail.all
      (fun ev => ev == [StoreEvent.duplicateOrphan, StoreEvent.orphaned]) = true ∧
    (storeTrace (List.replicate (n + 1) xBlock) ⟨[gBlock], [], 0⟩).2.chain
      = [gBlock] := by
  obtain ⟨m, rfl⟩ : ∃ m, n = m + 1 := ⟨n - 1, by omega⟩
  have hrep : List.replicate (m + 1 + 1) xBlock
      = xBlock :: List.replicate (m + 1) xBlock :=
    List.replicate_succ xBlock (m + 1)
  have hfirst : doStore xBlock ⟨[gBlock], [], 0⟩
      = ⟨⟨[gBlock], [xBlock], 1⟩, [StoreEvent.orphaned], true, false⟩ := rfl
  have htr : storeTrace (xBlock :: List.replicate (m + 1) xBlock) ⟨[gBlock], [], 0⟩
      = (doStore xBlock ⟨[gBlock], [], 0⟩ ::
          (storeTrace (List.replicate (m + 1) xBlock)
            (doStore xBlock ⟨[gBlock], [], 0⟩).state).1,
         (storeTrace (List.replicate (m + 1) xBlock)
            (doStore xBlock ⟨[gBlock], [], 0⟩).state).2) := rfl
  have hstate : (doStore xBlock ⟨[gBlock], [], 0⟩).state = ⟨[gBlock], [xBlock], 1⟩ := by
    rw [hfirst]
  have htail := dupOrphanTrace (m + 1) 1 (by decide)
    (by simp only [flushThreshold] at hth ⊢; omega)
  rw [hrep, htr, hstate, hfirst]
  refine ⟨?_, by simp only [List.map_cons, List.head?_cons], ?_, ?_⟩
  · simp only [List.map_cons, List.get?_cons_succ]
    rw [htail.2.2]
    rw [List.get?_map]
    rw [List.get?_range (by omega : m < m + 1)]
    simp only [Nat.add_sub_cancel]
    rfl
  · rw [List.all_eq_true]
    intro ev hev
    simp only [List.map_cons, List.tail_cons] at hev
    obtain ⟨r, hr, rfl⟩ := List.mem_map.mp hev
    rw [htail.2.1 r hr]
    rfl
  · rw [htail.1]

/-- C6 counterexample: a run of 2000 store calls in which only the first
call stores anything (and only as a never-confirmed orphan — every later
call is a duplicate/orphan rejection and the canonical chain never grows)
still forces a flush on the 2000th call.  The code's counter counts every
call that is not an already-confirmed duplicate, not the successfully
stored/confirmed blocks the claim refers to, so the flush fires although
that count (at most 1) never reaches 2000. -/
theorem flush_counter_cex :
    ((storeTrace (List.replicate 2000 xBlock) ⟨[gBlock], [], 0⟩).1.map
        StoreResult.flushed).get? 1999 = some true ∧
    ((storeTrace (List.replicate 2000 xBlock) ⟨[gBlock], [], 0⟩).1.map
        StoreResult.events).head? = some [StoreEvent.orphaned] ∧
    ((storeTrace (List.replicate 2000 xBlock) ⟨[gBlock], [], 0⟩).1.map
        StoreResult.events).tail.all
      (fun ev => ev == [StoreEvent.duplicateOrphan, StoreEvent.orphaned]) = true ∧
    (storeTrace (List.replicate 2000 xBlock) ⟨[gBlock], [], 0⟩).2.chain = [gBlock] := by
  have H := dupOrphanFullAux 1999 (by decide) (by decide)
  have h2000 : (2000 : Nat) = 1999 + 1 := rfl
  rw [h2000]
  refine ⟨?_, H.2.1, H.2.2.1, H.2.2.2⟩
  rw [H.1]
  rfl

end LevelDbBlockchain
